import Mathlib

/-!
Verification of the snapshot-store core of the repository
(src/src/framework/base_page.py: BasePage.save_html_snapshot and
BasePage._cleanup_history) and of the calculator module
(src/src/calculator/calculator.py: add).

The filesystem state touched by the snapshot store is embedded as a
`Store`: the flat snapshot directory (live files such as S.html), the
history subdirectory (files such as S_YYYYMMDD_HHMMSS.html), and two
directory-existence flags.  A file is a name, a content string and a
filesystem modification time (an abstract Nat tick).  I/O failures are
driven by an explicit oracle `fails : Step → Bool` that tells which
operation of a call raises; `save_html_snapshot` returns
`Except Unit Store`, where `Except.error` means the Python call raised
to its caller and `Except.ok` means it returned normally.
-/

/-- A file on disk: its name within its directory, its text content and its
filesystem modification time (`st_mtime`, abstracted to a Nat tick). -/
structure HFile where
  name : String
  content : String
  mtime : Nat
deriving DecidableEq, Repr

/-- The filesystem state seen by the snapshot store: the snapshot directory
(holding the live `{subject}.html` files), its `history` subdirectory
(holding the `{subject}_{timestamp}.html` copies), and existence flags for
the two directories (`os.makedirs(..., exist_ok=True)` sets them). Lists
are kept in directory-listing order. -/
structure Store where
  live : List HFile
  history : List HFile
  snapshotDirExists : Bool
  historyDirExists : Bool
deriving DecidableEq, Repr

/-- The empty filesystem: nothing written, directories not yet created. -/
def emptyStore : Store := ⟨[], [], false, false⟩

/-- The single operations of one `save_html_snapshot` call that can raise an
I/O (or driver) exception, in the order the Python code performs them. -/
inductive Step where
  | mkSnapshotDir
  | getPageSource
  | writeLive
  | mkHistoryDir
  | writeHist
  | listHist
  | unlink (fname : String)
deriving DecidableEq, Repr

/-- The oracle describing a run where no operation fails. -/
def noFail : Step → Bool := fun _ => false

/-- Name of the live snapshot file: `f"{page_name}.html"`. -/
def liveName (page_name : String) : String := page_name ++ ".html"

/-- Name of a history file: `f"{page_name}_{timestamp}.html"`. -/
def histName (page_name timestamp : String) : String :=
  page_name ++ "_" ++ timestamp ++ ".html"

/-- Whether a filename matches the glob pattern `f"{page_name}_*.html"` used
by `_cleanup_history`: the name is `page_name` + "_" + anything + ".html". -/
def matchesGlob (page_name fname : String) : Bool :=
  let p := (page_name ++ "_").data
  p.isPrefixOf fname.data && ".html".data.isSuffixOf (fname.data.drop p.length)

/-- Overwriting step of a file write: replace the content and mtime of the
file if its name is the written one, leave it alone otherwise. -/
def updFile (fname content : String) (mtime : Nat) (f : HFile) : HFile :=
  if f.name == fname then { f with content := content, mtime := mtime } else f

/-- Writing a file (`open(path, "w")` + `write`): overwrite in place if a
file of that name exists in the directory, else create it at the end of the
directory listing; the written file gets the current time as its mtime. -/
def writeFile (dir : List HFile) (fname content : String) (mtime : Nat) : List HFile :=
  if dir.any (fun f => f.name == fname) then
    dir.map (updFile fname content mtime)
  else
    dir ++ [⟨fname, content, mtime⟩]

/-- One step of Python's stable `sorted(..., key=lambda p: p.stat().st_mtime,
reverse=True)`: insert a file into an mtime-descending list, after any file
with an mtime greater than or equal to its own (stability: ties keep the
original listing order). -/
def insertDesc (f : HFile) : List HFile → List HFile
  | [] => [f]
  | g :: gs => if f.mtime ≥ g.mtime then f :: g :: gs else g :: insertDesc f gs

/-- Python's stable sort by mtime, descending (`sorted` with `reverse=True`). -/
def sortDesc : List HFile → List HFile
  | [] => []
  | f :: fs => insertDesc f (sortDesc fs)

/-- Python slice `lst[k:]` for an arbitrary (possibly negative) integer `k`:
for `k ≥ 0` drop the first `k` elements; for `k < 0` start at index
`max 0 (len + k)`. -/
def pySliceFrom (k : Int) (l : List HFile) : List HFile :=
  if 0 ≤ k then l.drop k.toNat else l.drop (l.length - (-k).toNat)

/-- The deletion loop `for old_file in history_files[keep_count:]:
old_file.unlink()`.  Each unlink removes the file of that name from the
directory; if an unlink raises, the loop stops there (the exception
propagates to the `except` clause of `_cleanup_history`), leaving the
deletions already performed in place. -/
def unlinkAll (fails : Step → Bool) (names : List String) (history : List HFile) : List HFile :=
  match names with
  | [] => history
  | n :: ns =>
    if fails (Step.unlink n) then history
    else unlinkAll fails ns (history.filter (fun f => f.name != n))

/-- BasePage._cleanup_history (base_page.py lines 88-115): list the history
files matching `{page_name}_*.html`, sort them by mtime descending (stable),
and unlink every file beyond index `keep_count` in that ordering.  The whole
body is wrapped in try/except, so a failure while listing leaves the
directory unchanged and a failure while unlinking keeps the deletions made
so far; in either case the exception is swallowed. -/
def cleanup_history (fails : Step → Bool) (page_name : String) (history : List HFile)
    (keep_count : Int) : List HFile :=
  if fails Step.listHist then history
  else
    let history_files := sortDesc (history.filter (fun f => matchesGlob page_name f.name))
    unlinkAll fails ((pySliceFrom keep_count history_files).map HFile.name) history

/-- BasePage.save_html_snapshot (base_page.py lines 44-86).  In source
order: `os.makedirs(snapshot_dir, exist_ok=True)` runs before the try
block, so a failure there propagates to the caller (`Except.error`).
Inside the try block: read the page source, write the live file
`{page_name}.html`, create the history directory, write the history file
`{page_name}_{timestamp}.html`, then prune via `cleanup_history`; a failure
at any of these points jumps to the except clause, which logs and swallows,
so the call still returns normally with the partial state.  `timestamp`
stands for `datetime.now().strftime("%Y%m%d_%H%M%S")` (see `pyStrftime`),
`content` for `self.driver.page_source`, and `now` for the current mtime
tick given to the files written by this call. -/
def save_html_snapshot (fails : Step → Bool) (page_name content timestamp : String)
    (keep_history : Int) (now : Nat) (s : Store) : Except Unit Store :=
  if fails Step.mkSnapshotDir then Except.error () else
  let s0 : Store := { s with snapshotDirExists := true }
  Except.ok <|
    if fails Step.getPageSource then s0 else
    if fails Step.writeLive then s0 else
    let s1 : Store := { s0 with live := writeFile s0.live (liveName page_name) content now }
    if fails Step.mkHistoryDir then s1 else
    let s2 : Store := { s1 with historyDirExists := true }
    if fails Step.writeHist then s2 else
    let s3 : Store := { s2 with history := writeFile s2.history (histName page_name timestamp) content now }
    { s3 with history := cleanup_history fails page_name s3.history keep_history }

/-- A failure-free `save_html_snapshot` call (spec operation `capture`):
with the no-failure oracle the call always returns normally, and `capture`
is the resulting store. -/
def capture (page_name content timestamp : String) (keep_history : Int) (now : Nat)
    (s : Store) : Store :=
  match save_html_snapshot noFail page_name content timestamp keep_history now s with
  | Except.ok s1 => s1
  | Except.error _ => s

/-- Iterated capture for one subject with a fixed retention: each element of
`caps` is (content, timestamp, mtime tick) of one call, applied in order. -/
def captureSeq (page_name : String) (keep_history : Int) :
    List (String × String × Nat) → Store → Store
  | [], s => s
  | (c, ts, now) :: rest, s =>
    captureSeq page_name keep_history rest (capture page_name c ts keep_history now s)

/-- Spec operation `readLiveSnapshot`: read `{subject}.html` if present. -/
def readLive (s : Store) (subject : String) : Option String :=
  (s.live.find? (fun f => f.name == liveName subject)).map HFile.content

/-- A Python `datetime.datetime` value as produced by `datetime.now()`:
calendar fields plus microseconds. -/
structure PyDateTime where
  year : Nat
  month : Nat
  day : Nat
  hour : Nat
  minute : Nat
  second : Nat
  microsecond : Nat
deriving DecidableEq, Repr

/-- Field ranges guaranteed by Python's datetime type (MINYEAR = 1,
MAXYEAR = 9999). -/
def PyDateTime.Valid (d : PyDateTime) : Prop :=
  1 ≤ d.year ∧ d.year ≤ 9999 ∧ 1 ≤ d.month ∧ d.month ≤ 12 ∧ 1 ≤ d.day ∧ d.day ≤ 31 ∧
  d.hour ≤ 23 ∧ d.minute ≤ 59 ∧ d.second ≤ 59 ∧ d.microsecond ≤ 999999

instance (d : PyDateTime) : Decidable d.Valid := by
  unfold PyDateTime.Valid
  infer_instance

/-- Two datetimes fall in the same second exactly when all fields down to
the seconds agree (they may differ in microseconds). -/
def sameSecond (d1 d2 : PyDateTime) : Prop :=
  d1.year = d2.year ∧ d1.month = d2.month ∧ d1.day = d2.day ∧
  d1.hour = d2.hour ∧ d1.minute = d2.minute ∧ d1.second = d2.second

instance (d1 d2 : PyDateTime) : Decidable (sameSecond d1 d2) := by
  unfold sameSecond
  infer_instance

/-- The decimal digit character for n % 10. -/
def digitChar (n : Nat) : Char := Char.ofNat (48 + n % 10)

/-- The last `w` decimal digits of `n`, zero padded to width `w`, most
significant first (the rendering of a `%0wd` field for `n < 10^w`). -/
def padDigits : Nat → Nat → List Char
  | 0, _ => []
  | w + 1, n => digitChar (n / 10 ^ w) :: padDigits w n

/-- The string `datetime.now().strftime("%Y%m%d_%H%M%S")`: zero-padded
second-resolution rendering (microseconds do not appear). -/
def pyStrftime (d : PyDateTime) : String :=
  ⟨padDigits 4 d.year ++ padDigits 2 d.month ++ padDigits 2 d.day ++
    '_' :: (padDigits 2 d.hour ++ padDigits 2 d.minute ++ padDigits 2 d.second)⟩

/-- Chronological key of a datetime at second resolution: the number
YYYYMMDDHHMMSS.  For valid datetimes, comparing keys is comparing
instants (ignoring microseconds). -/
def secKey (d : PyDateTime) : Nat :=
  ((((d.year * 100 + d.month) * 100 + d.day) * 100 + d.hour) * 100 + d.minute) * 100 + d.second

/-- add from src/src/calculator/calculator.py: return the sum of the two
numbers (numbers embedded as integers). -/
def add (a b : Int) : Int := a + b


/-! Basic lemmas about the embedding. -/

theorem str_data_append (s t : String) : (s ++ t).data = s.data ++ t.data := rfl

theorem str_data_inj {s t : String} (h : s.data = t.data) : s = t := by
  cases s
  cases t
  exact congrArg String.mk h

theorem updFile_name (n c : String) (m : Nat) (f : HFile) : (updFile n c m f).name = f.name := by
  unfold updFile
  split
  · rfl
  · rfl

theorem updFile_of_beq_true {n : String} {f : HFile} (c : String) (m : Nat)
    (hf : (f.name == n) = true) : updFile n c m f = { f with content := c, mtime := m } :=
  if_pos hf

theorem updFile_of_beq_false {n : String} {f : HFile} (c : String) (m : Nat)
    (hf : (f.name == n) = false) : updFile n c m f = f := by
  unfold updFile
  rw [hf]
  rfl

/-- The no-failure run of save_html_snapshot, unfolded. -/
theorem capture_eq (p c t : String) (k : Int) (now : Nat) (s : Store) :
    capture p c t k now s =
      { live := writeFile s.live (liveName p) c now,
        history := cleanup_history noFail p (writeFile s.history (histName p t) c now) k,
        snapshotDirExists := true, historyDirExists := true } := rfl

/-- With no failures, the unlink loop removes exactly the files whose name
is in the deletion list. -/
theorem unlinkAll_noFail (ns : List String) (h : List HFile) :
    unlinkAll noFail ns h = h.filter (fun f => !(ns.contains f.name)) := by
  induction ns generalizing h with
  | nil => simp [unlinkAll]
  | cons n ns ih =>
    simp only [unlinkAll, noFail, if_neg Bool.false_ne_true, ih, List.filter_filter]
    apply List.filter_congr
    intro x _
    by_cases hx : x.name = n
    · simp [List.contains_cons, hx]
    · simp [List.contains_cons, bne_iff_ne, hx, Bool.and_comm]

/-- With no failures, cleanup_history is a filter removing the files beyond
the slice index in the mtime-descending ordering of the matching files. -/
theorem cleanup_history_noFail (p : String) (h : List HFile) (k : Int) :
    cleanup_history noFail p h k =
      h.filter (fun f =>
        !(((pySliceFrom k (sortDesc (h.filter (fun g => matchesGlob p g.name)))).map
            HFile.name).contains f.name)) := by
  simp [cleanup_history, noFail, unlinkAll_noFail]

/-- A history filename produced for subject `p` matches the glob of `p`. -/
theorem matchesGlob_histName (p ts : String) : matchesGlob p (histName p ts) = true := by
  have hdata : (histName p ts).data = (p ++ "_").data ++ (ts.data ++ ".html".data) := by
    simp [histName, str_data_append, List.append_assoc]
  simp only [matchesGlob, hdata, Bool.and_eq_true]
  constructor
  · exact List.isPrefixOf_iff_prefix.2 (List.prefix_append _ _)
  · rw [List.drop_left]
    exact List.isSuffixOf_iff_suffix.2 (List.suffix_append _ _)

/-- Any filename matching the glob of `p` starts with the characters of
`p` followed by an underscore. -/
theorem matchesGlob_prefix {p fname : String} (h : matchesGlob p fname = true) :
    (p ++ "_").data.IsPrefix fname.data := by
  simp only [matchesGlob, Bool.and_eq_true] at h
  exact List.isPrefixOf_iff_prefix.1 h.1

/-- histName is injective in the timestamp. -/
theorem histName_inj {p a b : String} (h : histName p a = histName p b) : a = b := by
  have hd : (p ++ "_").data ++ (a.data ++ ".html".data) =
      (p ++ "_").data ++ (b.data ++ ".html".data) := by
    have := congrArg String.data h
    simpa [histName, str_data_append, List.append_assoc] using this
  have := List.append_cancel_left hd
  exact str_data_inj (List.append_cancel_right this)

/-- liveName is injective. -/
theorem liveName_inj {a b : String} (h : liveName a = liveName b) : a = b := by
  have hd : a.data ++ ".html".data = b.data ++ ".html".data := by
    have := congrArg String.data h
    simpa [liveName, str_data_append] using this
  exact str_data_inj (List.append_cancel_right hd)

/-- Writing a file whose name is not yet in the directory appends it. -/
theorem writeFile_of_fresh {dir : List HFile} {fname : String}
    (hf : ∀ f ∈ dir, f.name ≠ fname) (c : String) (m : Nat) :
    writeFile dir fname c m = dir ++ [⟨fname, c, m⟩] := by
  unfold writeFile
  rw [if_neg]
  simp only [List.any_eq_true, beq_iff_eq, not_exists]
  intro f
  intro hcon
  exact hf f hcon.1 hcon.2

/-- Looking up the written name in the overwrite branch finds the new content. -/
theorem find?_map_update_self (dir : List HFile) (n c : String) (m : Nat) :
    dir.any (fun f => f.name == n) = true →
    ((dir.map (updFile n c m)).find?
      (fun f => f.name == n)).map HFile.content = some c := by
  induction dir with
  | nil => intro h; simp at h
  | cons f fs ih =>
    intro hany
    by_cases hf : (f.name == n) = true
    · rw [List.map_cons, List.find?_cons_of_pos]
      · rw [updFile_of_beq_true c m hf]
        rfl
      · rw [updFile_name]
        exact hf
    · have hf0 : (f.name == n) = false := by simpa using hf
      simp only [List.any_cons, hf0, Bool.false_or] at hany
      rw [List.map_cons, List.find?_cons_of_neg]
      · exact ih hany
      · rw [updFile_name]
        simp [hf0]

/-- Overwriting a file does not disturb lookups of other names. -/
theorem find?_map_update_frame (dir : List HFile) (n c : String) (m : Nat) (g : String)
    (hne : g ≠ n) :
    (dir.map (updFile n c m)).find? (fun f => f.name == g) =
      dir.find? (fun f => f.name == g) := by
  induction dir with
  | nil => rfl
  | cons f fs ih =>
    by_cases hfg : (f.name == g) = true
    · have hfn : (f.name == n) = false := by
        have hfgeq : f.name = g := by simpa using hfg
        rw [hfgeq]
        simpa using hne
      rw [List.map_cons, List.find?_cons_of_pos,
        List.find?_cons_of_pos (p := fun f => f.name == g) fs hfg]
      · rw [updFile_of_beq_false c m hfn]
      · rw [updFile_name]
        exact hfg
    · have hfg0 : (f.name == g) = false := by simpa using hfg
      rw [List.map_cons, List.find?_cons_of_neg, List.find?_cons_of_neg]
      · exact ih
      · simp [hfg0]
      · rw [updFile_name]
        simp [hfg0]

/-- Looking up the written name after a write finds the new content. -/
theorem find?_writeFile_self (dir : List HFile) (n c : String) (m : Nat) :
    ((writeFile dir n c m).find? (fun f => f.name == n)).map HFile.content = some c := by
  unfold writeFile
  by_cases hany : dir.any (fun f => f.name == n) = true
  · rw [if_pos hany]
    exact find?_map_update_self dir n c m hany
  · rw [if_neg hany]
    rw [List.find?_append]
    have hnone : dir.find? (fun f => f.name == n) = none := by
      rw [List.find?_eq_none]
      intro f hfdir
      simp only [List.any_eq_true, not_exists] at hany
      intro hcon
      exact hany f ⟨hfdir, hcon⟩
    simp [hnone, List.find?_cons]

/-- Looking up a different name is unaffected by a write. -/
theorem find?_writeFile_frame (dir : List HFile) (n c : String) (m : Nat) (g : String)
    (hne : g ≠ n) :
    (writeFile dir n c m).find? (fun f => f.name == g) = dir.find? (fun f => f.name == g) := by
  unfold writeFile
  by_cases hany : dir.any (fun f => f.name == n) = true
  · rw [if_pos hany]
    exact find?_map_update_frame dir n c m g hne
  · rw [if_neg hany]
    rw [List.find?_append]
    have hsingle : ([(⟨n, c, m⟩ : HFile)].find? (fun f => f.name == g)) = none := by
      simp [List.find?_cons, Ne.symm hne]
    simp [hsingle]

/-- Inserting into the descending list is a permutation of consing. -/
theorem insertDesc_perm (f : HFile) (l : List HFile) : (insertDesc f l).Perm (f :: l) := by
  induction l with
  | nil => exact List.Perm.refl _
  | cons g gs ih =>
    unfold insertDesc
    by_cases hm : f.mtime ≥ g.mtime
    · rw [if_pos hm]
    · rw [if_neg hm]
      exact (List.Perm.cons g ih).trans (List.Perm.swap f g gs)

/-- The stable descending sort permutes its input. -/
theorem sortDesc_perm (l : List HFile) : (sortDesc l).Perm l := by
  induction l with
  | nil => exact List.Perm.refl _
  | cons f fs ih =>
    exact (insertDesc_perm f (sortDesc fs)).trans (List.Perm.cons f ih)

/-- The slice is a sublist of its input. -/
theorem pySliceFrom_sublist (k : Int) (l : List HFile) : (pySliceFrom k l).Sublist l := by
  unfold pySliceFrom
  split
  · exact List.drop_sublist _ _
  · exact List.drop_sublist _ _

/-- Every name in the deletion list of cleanup_history belongs to a file of
the directory that matches the glob. -/
theorem name_mem_delete_matches {p : String} {h : List HFile} {k : Int} {x : String}
    (hx : x ∈ ((pySliceFrom k (sortDesc (h.filter (fun g => matchesGlob p g.name)))).map
      HFile.name)) :
    ∃ g ∈ h, g.name = x ∧ matchesGlob p g.name = true := by
  rcases List.mem_map.1 hx with ⟨g, hg, rfl⟩
  have hg2 : g ∈ sortDesc (h.filter (fun g => matchesGlob p g.name)) :=
    (pySliceFrom_sublist _ _).subset hg
  have hg3 : g ∈ h.filter (fun g => matchesGlob p g.name) := (sortDesc_perm _).mem_iff.1 hg2
  have hsplit := List.mem_filter.1 hg3
  exact ⟨g, hsplit.1, rfl, hsplit.2⟩

/-- A file whose name differs from the written one survives a write. -/
theorem mem_writeFile_of_name_ne {dir : List HFile} {f : HFile} (hf : f ∈ dir) {n : String}
    (hne : f.name ≠ n) (c : String) (m : Nat) : f ∈ writeFile dir n c m := by
  unfold writeFile
  split
  · exact List.mem_map.2 ⟨f, hf, updFile_of_beq_false c m (by simpa using hne)⟩
  · exact List.mem_append_left _ hf

/-- The live file of the captured subject holds the captured content. -/
theorem readLive_capture (p c t : String) (k : Int) (now : Nat) (s : Store) :
    readLive (capture p c t k now s) p = some c := by
  rw [capture_eq]
  unfold readLive
  exact find?_writeFile_self s.live (liveName p) c now

/-- The live file of any other subject is untouched by a capture. -/
theorem readLive_capture_frame (p c t : String) (k : Int) (now : Nat) (s : Store) (q : String)
    (hq : q ≠ p) : readLive (capture p c t k now s) q = readLive s q := by
  rw [capture_eq]
  unfold readLive
  rw [find?_writeFile_frame s.live (liveName p) c now (liveName q)
    (fun hcon => hq (liveName_inj hcon))]

/-- With retention 0 the slice keeps nothing, so no matching file survives. -/
theorem cleanup_zero_filter_nil (p : String) (h : List HFile) :
    (cleanup_history noFail p h 0).filter (fun f => matchesGlob p f.name) = [] := by
  rw [cleanup_history_noFail, List.filter_filter]
  rw [List.filter_eq_nil_iff]
  intro f hf
  simp only [Bool.and_eq_true, Bool.not_eq_true']
  intro hcon
  have hslice : pySliceFrom 0 (sortDesc (h.filter (fun g => matchesGlob p g.name))) =
      sortDesc (h.filter (fun g => matchesGlob p g.name)) := by
    simp [pySliceFrom]
  rw [hslice] at hcon
  have hfm : f ∈ h.filter (fun g => matchesGlob p g.name) := List.mem_filter.2 ⟨hf, hcon.1⟩
  have hfs : f ∈ sortDesc (h.filter (fun g => matchesGlob p g.name)) :=
    (sortDesc_perm _).mem_iff.2 hfm
  have hmem : f.name ∈ (sortDesc (h.filter (fun g => matchesGlob p g.name))).map HFile.name :=
    List.mem_map.2 ⟨f, hfs, rfl⟩
  have hfalse := hcon.2
  rw [List.contains_eq_any_beq, List.any_eq_false] at hfalse
  exact hfalse f.name hmem (by simp)

/-- Claim C10: for every pair of numbers a and b, add returns exactly
a + b; consequently add is commutative and has identity 0. -/
theorem c10_add_sum_comm_id (a b : Int) :
    add a b = a + b ∧ add a b = add b a ∧ add a 0 = a := by
  unfold add
  exact ⟨rfl, Int.add_comm a b, Int.add_zero a⟩

/-- Claim C4: after any successful capture for subject S the live file
S.html contains exactly the content passed to that capture call,
independently of the retention argument and of pruning. -/
theorem c4_live_reflects_latest (S c ts : String) (N : Int) (now : Nat) (s : Store) :
    readLive (capture S c ts N now s) S = some c :=
  readLive_capture S c ts N now s

/-- Claim C6: a capture with retention 0 leaves the live file holding the
captured content, the history directory existing, and no history file
matching the subject's glob. -/
theorem c6_zero_retention (S c ts : String) (now : Nat) (s : Store) :
    readLive (capture S c ts 0 now s) S = some c ∧
    (capture S c ts 0 now s).historyDirExists = true ∧
    (capture S c ts 0 now s).history.filter (fun f => matchesGlob S f.name) = [] := by
  refine ⟨readLive_capture S c ts 0 now s, ?_, ?_⟩
  · rw [capture_eq]
  · rw [capture_eq]
    exact cleanup_zero_filter_nil S (writeFile s.history (histName S ts) c now)

/-- Claim C2, counterexample: an I/O failure in the snapshot-directory
creation step (the first os.makedirs, which sits outside the try block)
propagates out of save_html_snapshot, so the call does raise. -/
theorem c2_counterexample :
    save_html_snapshot (fun st => decide (st = Step.mkSnapshotDir)) "PageA" "content"
      "20240101_120000" 2 0 emptyStore = Except.error () := rfl

/-- Claim C2, amended: save_html_snapshot returns normally under every
failure pattern that does not fail the initial snapshot-directory
creation; failures of the page-source read, the live write, the
history-directory creation, the history write, the listing and the
deletions are all caught and swallowed. -/
theorem c2_amended_no_raise (fails : Step → Bool) (p c ts : String) (k : Int) (now : Nat)
    (s : Store) (hmk : fails Step.mkSnapshotDir = false) :
    ∃ s1, save_html_snapshot fails p c ts k now s = Except.ok s1 := by
  unfold save_html_snapshot
  rw [hmk, if_neg Bool.false_ne_true]
  exact ⟨_, rfl⟩

theorem c2_amended_no_raise_witness :
    ∃ s1, save_html_snapshot noFail "PageA" "c" "20240101_120000" 2 0 emptyStore =
      Except.ok s1 :=
  c2_amended_no_raise noFail "PageA" "c" "20240101_120000" 2 0 emptyStore rfl

/-- Claim C5, counterexample: subjects "A" and "A_B" are distinct, yet a
capture for "A" with retention 0 deletes the history entry of "A_B",
because the name A_B_20240101_120000.html matches the glob A_*.html. -/
theorem c5_counterexample :
    ("A" : String) ≠ "A_B" ∧
    (∃ f ∈ (⟨[], [⟨"A_B_20240101_120000.html", "told", 0⟩], true, true⟩ : Store).history,
      f.name = histName "A_B" "20240101_120000") ∧
    (∀ f ∈ (capture "A" "new" "20240102_120000" 0 5
        (⟨[], [⟨"A_B_20240101_120000.html", "told", 0⟩], true, true⟩ : Store)).history,
      f.name ≠ histName "A_B" "20240101_120000") := by
  decide

/-- Claim C5, amended: a capture for S deletes files only via its pruning
step, and that step deletes only files whose names match the glob
S_*.html; hence every history file not matching the glob of S (in
particular every history entry of a subject T whose filenames do not
start with S followed by an underscore) survives unchanged, and the live
snapshot of any subject other than S is never modified. -/
theorem c5_amended_frame (S T c ts : String) (N : Int) (now : Nat) (s : Store)
    (hTS : T ≠ S) :
    (∀ f ∈ s.history, matchesGlob S f.name = false →
      f ∈ (capture S c ts N now s).history) ∧
    readLive (capture S c ts N now s) T = readLive s T := by
  constructor
  · intro f hf hm
    rw [capture_eq]
    have hne : f.name ≠ histName S ts := by
      intro hcon
      rw [hcon, matchesGlob_histName] at hm
      simp at hm
    have hf1 : f ∈ writeFile s.history (histName S ts) c now :=
      mem_writeFile_of_name_ne hf hne c now
    rw [cleanup_history_noFail]
    refine List.mem_filter.2 ⟨hf1, ?_⟩
    simp only [Bool.not_eq_true']
    rw [List.contains_eq_any_beq, List.any_eq_false]
    intro x hx hcon
    have hxeq : f.name = x := by simpa using hcon
    rcases name_mem_delete_matches hx with ⟨g, _, hgname, hgm⟩
    rw [← hxeq] at hgname
    have : matchesGlob S f.name = true := by
      have hmg := hgm
      rw [hgname] at hmg
      exact hmg
    rw [this] at hm
    simp at hm
  · exact readLive_capture_frame S c ts N now s T hTS

theorem c5_amended_frame_witness :
    (∀ f ∈ (⟨[], [⟨"B_20240101_120000.html", "old", 0⟩], true, true⟩ : Store).history,
      matchesGlob "A" f.name = false →
      f ∈ (capture "A" "new" "20240102_120000" 0 5
        (⟨[], [⟨"B_20240101_120000.html", "old", 0⟩], true, true⟩ : Store)).history) ∧
    readLive (capture "A" "new" "20240102_120000" 0 5
        (⟨[], [⟨"B_20240101_120000.html", "old", 0⟩], true, true⟩ : Store)) "B" =
      readLive (⟨[], [⟨"B_20240101_120000.html", "old", 0⟩], true, true⟩ : Store) "B" :=
  c5_amended_frame "A" "B" "new" "20240102_120000" 0 5
    (⟨[], [⟨"B_20240101_120000.html", "old", 0⟩], true, true⟩ : Store) (by decide)

/-- Inserting preserves mtime-descending sortedness. -/
theorem insertDesc_sorted {l : List HFile}
    (hl : l.Pairwise (fun a b => b.mtime ≤ a.mtime)) (f : HFile) :
    (insertDesc f l).Pairwise (fun a b => b.mtime ≤ a.mtime) := by
  induction l with
  | nil => simp [insertDesc]
  | cons g gs ih =>
    rcases List.pairwise_cons.1 hl with ⟨hg, hgs⟩
    unfold insertDesc
    by_cases hm : f.mtime ≥ g.mtime
    · rw [if_pos hm]
      refine List.pairwise_cons.2 ⟨?_, hl⟩
      intro b hb
      rcases List.mem_cons.1 hb with rfl | hbgs
      · exact hm
      · exact le_trans (hg b hbgs) hm
    · rw [if_neg hm]
      refine List.pairwise_cons.2 ⟨?_, ih hgs⟩
      intro b hb
      rcases List.mem_cons.1 ((insertDesc_perm f gs).mem_iff.1 hb) with rfl | hbgs
      · exact le_of_lt (lt_of_not_ge hm)
      · exact hg b hbgs

/-- The stable sort is sorted by mtime, descending. -/
theorem sortDesc_sorted (l : List HFile) :
    (sortDesc l).Pairwise (fun a b => b.mtime ≤ a.mtime) := by
  induction l with
  | nil => simp [sortDesc]
  | cons f fs ih => exact insertDesc_sorted ih f

/-- When mtimes are pairwise distinct the sort is strictly descending. -/
theorem sortDesc_sorted_strict {l : List HFile} (hmt : (l.map HFile.mtime).Nodup) :
    (sortDesc l).Pairwise (fun a b => b.mtime < a.mtime) := by
  have h1 : (sortDesc l).Pairwise (fun a b => b.mtime ≤ a.mtime) := sortDesc_sorted l
  have hmt2 : ((sortDesc l).map HFile.mtime).Nodup :=
    ((sortDesc_perm l).map HFile.mtime).nodup_iff.2 hmt
  have h2 : (sortDesc l).Pairwise (fun a b => a.mtime ≠ b.mtime) := List.pairwise_map.1 hmt2
  exact (h1.and h2).imp (fun hab => lt_of_le_of_ne hab.1 (Ne.symm hab.2))

/-- In a strictly mtime-descending list, a member sits in the suffix
`l.drop m` exactly when at least `m` members have a strictly greater
mtime (its rank is at least m). -/
theorem mem_drop_iff_rank (l : List HFile) (f : HFile) :
    l.Pairwise (fun a b => b.mtime < a.mtime) → f ∈ l → ∀ m : Nat,
    (f ∈ l.drop m ↔ m ≤ (l.filter (fun g => decide (f.mtime < g.mtime))).length) := by
  induction l with
  | nil => intro _ hf; cases hf
  | cons a l ih =>
    intro hs hf m
    rcases List.pairwise_cons.1 hs with ⟨ha, hs2⟩
    rcases List.mem_cons.1 hf with rfl | hfl
    · have hfilter : ((f :: l).filter (fun g => decide (f.mtime < g.mtime))).length = 0 := by
        rw [List.length_eq_zero, List.filter_eq_nil_iff]
        intro g hg
        rcases List.mem_cons.1 hg with rfl | hgl
        · simp
        · simp only [decide_eq_true_eq]
          exact fun hcon => absurd hcon (not_lt.2 (le_of_lt (ha g hgl)))
      rw [hfilter]
      cases m with
      | zero => simp
      | succ k =>
        rw [List.drop_succ_cons]
        constructor
        · intro hmem
          exfalso
          have hal : f ∈ l := (List.drop_sublist k l).subset hmem
          exact lt_irrefl f.mtime (ha f hal)
        · intro hle
          exact absurd hle (by omega)
    · have hfa : f.mtime < a.mtime := ha f hfl
      have hfilter : ((a :: l).filter (fun g => decide (f.mtime < g.mtime))).length =
          (l.filter (fun g => decide (f.mtime < g.mtime))).length + 1 := by
        rw [List.filter_cons, if_pos (by simpa using hfa)]
        simp [Nat.add_comm]
      rw [hfilter]
      cases m with
      | zero => simp [hfl]
      | succ k =>
        rw [List.drop_succ_cons, ih hs2 hfl k]
        omega

/-- The slice with a nonnegative (Nat) index is a plain drop. -/
theorem pySliceFrom_natCast (N : Nat) (l : List HFile) :
    pySliceFrom (N : Int) l = l.drop N := by
  simp [pySliceFrom]

/-- Python slice lst[-1:] keeps only the last element of the list. -/
theorem pySliceFrom_negOne (l : List HFile) :
    pySliceFrom (-1) l = l.drop (l.length - 1) := by
  norm_num [pySliceFrom]

/-- Under unique names, a file's name occurs in the deletion list exactly
when the file itself is in the slice. -/
theorem contains_delete_iff {p : String} {h : List HFile} {k : Int}
    (hnd : (h.map HFile.name).Nodup) {f : HFile} (hf : f ∈ h) :
    ((((pySliceFrom k (sortDesc (h.filter (fun g => matchesGlob p g.name)))).map
        HFile.name).contains f.name) = true)
      ↔ f ∈ pySliceFrom k (sortDesc (h.filter (fun g => matchesGlob p g.name))) := by
  constructor
  · intro hc
    rw [List.contains_eq_any_beq, List.any_eq_true] at hc
    rcases hc with ⟨x, hx, hbeq⟩
    have hxeq : f.name = x := by simpa using hbeq
    rcases List.mem_map.1 hx with ⟨g, hg, hgname⟩
    have hg2 : g ∈ h := List.mem_of_mem_filter
      ((sortDesc_perm _).mem_iff.1 ((pySliceFrom_sublist _ _).subset hg))
    have hgf : g = f := List.inj_on_of_nodup_map hnd hg2 hf (by rw [hgname, ← hxeq])
    exact hgf ▸ hg
  · intro hmem
    rw [List.contains_eq_any_beq, List.any_eq_true]
    exact ⟨f.name, List.mem_map.2 ⟨f, hmem, rfl⟩, by simp⟩

/-- Membership after a failure-free cleanup: a file of the directory
survives exactly when it is not in the sliced-off part of the
mtime-descending ordering of the matching files. -/
theorem mem_cleanup_iff {p : String} {h : List HFile} {k : Int}
    (hnd : (h.map HFile.name).Nodup) {f : HFile} :
    f ∈ cleanup_history noFail p h k ↔
      f ∈ h ∧ f ∉ pySliceFrom k (sortDesc (h.filter (fun g => matchesGlob p g.name))) := by
  rw [cleanup_history_noFail, List.mem_filter]
  constructor
  · rintro ⟨hfh, hpred⟩
    refine ⟨hfh, ?_⟩
    intro hcon
    rw [Bool.not_eq_true'] at hpred
    have h2 := (contains_delete_iff hnd hfh).2 hcon
    rw [h2] at hpred
    simp at hpred
  · rintro ⟨hfh, hnmem⟩
    refine ⟨hfh, ?_⟩
    rw [Bool.not_eq_true']
    rcases Bool.eq_false_or_eq_true (((pySliceFrom k (sortDesc
        (h.filter (fun g => matchesGlob p g.name)))).map HFile.name).contains f.name) with hb | hb
    · exact absurd ((contains_delete_iff hnd hfh).1 hb) hnmem
    · exact hb

/-- Length of the matching files after a failure-free cleanup: the number
of matching files minus the number of sliced-off files. -/
theorem cleanup_matched_length {p : String} {h : List HFile} {k : Int}
    (hnd : (h.map HFile.name).Nodup) :
    ((cleanup_history noFail p h k).filter (fun f => matchesGlob p f.name)).length =
      (h.filter (fun f => matchesGlob p f.name)).length -
        (pySliceFrom k (sortDesc (h.filter (fun f => matchesGlob p f.name)))).length := by
  have hhnd : h.Nodup := List.Nodup.of_map HFile.name hnd
  have hMnd : (h.filter (fun f => matchesGlob p f.name)).Nodup := hhnd.filter _
  have hDnd : (pySliceFrom k (sortDesc (h.filter (fun f => matchesGlob p f.name)))).Nodup :=
    (pySliceFrom_sublist _ _).nodup ((sortDesc_perm _).nodup_iff.2 hMnd)
  have hDsubM : ∀ x ∈ pySliceFrom k (sortDesc (h.filter (fun f => matchesGlob p f.name))),
      x ∈ h.filter (fun f => matchesGlob p f.name) :=
    fun x hx => (sortDesc_perm _).mem_iff.1 ((pySliceFrom_sublist _ _).subset hx)
  have hperm : ((h.filter (fun f => matchesGlob p f.name)).filter
      (fun f => decide (f ∈ pySliceFrom k (sortDesc (h.filter
        (fun f => matchesGlob p f.name)))))).Perm
      (pySliceFrom k (sortDesc (h.filter (fun f => matchesGlob p f.name)))) := by
    rw [List.perm_ext_iff_of_nodup (hMnd.filter _) hDnd]
    intro x
    constructor
    · intro hx
      have := (List.mem_filter.1 hx).2
      simpa using this
    · intro hx
      exact List.mem_filter.2 ⟨hDsubM x hx, by simpa using hx⟩
  have hset : (cleanup_history noFail p h k).filter (fun f => matchesGlob p f.name) =
      (h.filter (fun f => matchesGlob p f.name)).filter
        (fun f => !decide (f ∈ pySliceFrom k (sortDesc (h.filter
          (fun f => matchesGlob p f.name))))) := by
    rw [cleanup_history_noFail, List.filter_filter, List.filter_filter]
    apply List.filter_congr
    intro x hx
    by_cases hm : matchesGlob p x.name = true
    · by_cases hxD : x ∈ pySliceFrom k (sortDesc (h.filter (fun f => matchesGlob p f.name)))
      · have hc := (contains_delete_iff hnd hx).2 hxD
        simp only [hm, hc, hxD]
        simp
      · have hc : (((pySliceFrom k (sortDesc (h.filter (fun g => matchesGlob p g.name)))).map
            HFile.name).contains x.name) = false := by
          rcases Bool.eq_false_or_eq_true (((pySliceFrom k (sortDesc
              (h.filter (fun g => matchesGlob p g.name)))).map HFile.name).contains x.name)
            with hb | hb
          · exact absurd ((contains_delete_iff hnd hx).1 hb) hxD
          · exact hb
        simp [hm, hc, hxD]
        intro g hg hcon
        have hgh : g ∈ h := List.mem_of_mem_filter (hDsubM g hg)
        have hgx : g = x := List.inj_on_of_nodup_map hnd hgh hx hcon
        exact hxD (hgx ▸ hg)
    · have hm0 : matchesGlob p x.name = false := by simpa using hm
      simp [hm0]
  rw [hset]
  have hsplit := List.length_eq_length_filter_add
    (l := h.filter (fun f => matchesGlob p f.name))
    (fun f => decide (f ∈ pySliceFrom k (sortDesc (h.filter (fun f => matchesGlob p f.name)))))
  have hlenD := hperm.length_eq
  simp only [] at hsplit
  omega

/-- Claim C3: pruning orders the subject's history files by modification
time descending and deletes exactly those beyond index `retention` in that
ordering: when names are unique and the matching files have pairwise
distinct mtimes, a file of the directory survives cleanup exactly when it
does not match the glob, or fewer than `retention` matching files have a
strictly more recent mtime.  The kept matching files are therefore the
`retention` most recently modified ones, independent of the timestamps
embedded in their filenames. -/
theorem c3_prune_by_mtime_rank (S : String) (N : Nat) (h : List HFile)
    (hnd : (h.map HFile.name).Nodup)
    (hmt : ((h.filter (fun f => matchesGlob S f.name)).map HFile.mtime).Nodup) :
    ∀ f ∈ h, (f ∈ cleanup_history noFail S h (N : Int) ↔
      matchesGlob S f.name = false ∨
      (h.filter (fun g => matchesGlob S g.name && decide (f.mtime < g.mtime))).length < N) := by
  intro f hf
  rw [mem_cleanup_iff hnd, and_iff_right hf, pySliceFrom_natCast]
  by_cases hm : matchesGlob S f.name = true
  · have hfM : f ∈ h.filter (fun g => matchesGlob S g.name) := List.mem_filter.2 ⟨hf, hm⟩
    have hfS : f ∈ sortDesc (h.filter (fun g => matchesGlob S g.name)) :=
      (sortDesc_perm _).mem_iff.2 hfM
    have hstrict := sortDesc_sorted_strict hmt
    have hrank := mem_drop_iff_rank _ f hstrict hfS N
    have hlen : ((sortDesc (h.filter (fun g => matchesGlob S g.name))).filter
        (fun g => decide (f.mtime < g.mtime))).length =
        (h.filter (fun g => matchesGlob S g.name && decide (f.mtime < g.mtime))).length := by
      rw [((sortDesc_perm _).filter (fun g => decide (f.mtime < g.mtime))).length_eq]
      rw [List.filter_filter]
      apply congrArg List.length
      apply List.filter_congr
      intro x _
      rw [Bool.and_comm]
    rw [hlen] at hrank
    constructor
    · intro hnot
      refine Or.inr ?_
      rcases Nat.lt_or_ge (h.filter
        (fun g => matchesGlob S g.name && decide (f.mtime < g.mtime))).length N with hlt | hge
      · exact hlt
      · exact absurd (hrank.2 hge) hnot
    · rintro (hfalse | hlt)
      · rw [hm] at hfalse
        simp at hfalse
      · intro hcon
        have := hrank.1 hcon
        omega
  · have hm0 : matchesGlob S f.name = false := by simpa using hm
    constructor
    · intro _
      exact Or.inl hm0
    · intro _
      intro hcon
      have hcM : f ∈ h.filter (fun g => matchesGlob S g.name) :=
        (sortDesc_perm _).mem_iff.1 ((List.drop_sublist _ _).subset hcon)
      have := (List.mem_filter.1 hcM).2
      rw [hm0] at this
      simp at this

theorem c3_prune_by_mtime_rank_witness :
    (⟨"Sub_20240101_000000.html", "y", 10⟩ : HFile) ∈ cleanup_history noFail "Sub"
        [⟨"Sub_20240102_000000.html", "x", 5⟩, ⟨"Sub_20240101_000000.html", "y", 10⟩]
        ((1 : Nat) : Int) ↔
      matchesGlob "Sub" (⟨"Sub_20240101_000000.html", "y", 10⟩ : HFile).name = false ∨
      (([⟨"Sub_20240102_000000.html", "x", 5⟩,
          ⟨"Sub_20240101_000000.html", "y", 10⟩] : List HFile).filter
        (fun g => matchesGlob "Sub" g.name &&
          decide ((⟨"Sub_20240101_000000.html", "y", 10⟩ : HFile).mtime < g.mtime))).length < 1 :=
  c3_prune_by_mtime_rank "Sub" 1
    [⟨"Sub_20240102_000000.html", "x", 5⟩, ⟨"Sub_20240101_000000.html", "y", 10⟩]
    (by decide) (by decide) (⟨"Sub_20240101_000000.html", "y", 10⟩ : HFile) (by decide)

/-- A list holding two distinct members has length at least two. -/
theorem two_le_length_of_mem_ne {l : List HFile} {a b : HFile} (hab : a ≠ b) :
    a ∈ l → b ∈ l → 2 ≤ l.length := by
  induction l with
  | nil => intro ha _; cases ha
  | cons x t ih =>
    intro ha hb
    rcases List.mem_cons.1 ha with rfl | hat
    · rcases List.mem_cons.1 hb with hba | hbt
      · exact absurd hba.symm hab
      · have := List.length_pos_of_mem hbt
        simp only [List.length_cons]
        omega
    · rcases List.mem_cons.1 hb with rfl | hbt
      · have := List.length_pos_of_mem hat
        simp only [List.length_cons]
        omega
      · have := ih hat hbt
        simp only [List.length_cons]
        omega

/-- A duplicate-free list of length at least two has a member different
from any given file. -/
theorem exists_mem_ne {l : List HFile} (hl : l.Nodup) (h2 : 2 ≤ l.length) (f : HFile) :
    ∃ g ∈ l, g ≠ f := by
  rcases l with _ | ⟨a, t⟩
  · simp at h2
  rcases t with _ | ⟨b, t⟩
  · simp at h2
  by_cases haf : a = f
  · refine ⟨b, by simp, ?_⟩
    have hab : a ≠ b := by
      have hcons := List.nodup_cons.1 hl
      exact fun hcon => hcons.1 (hcon ▸ List.mem_cons_self b t)
    intro hbf
    exact hab (haf.trans hbf.symm)
  · exact ⟨a, by simp, haf⟩

/-- Claim C9: keep_history is not validated to be non-negative; for
keep_history = -1, Python slice semantics make pruning delete exactly one
matching file, the least recently modified one.  Under unique names, a
fresh timestamp and pairwise distinct mtimes: after capture with retention
-1 the matching files number one less than after the write, a matching
file survives exactly when some other matching file has a strictly
smaller mtime (so exactly the minimum is deleted), and the resulting
count never satisfies a bound of at most -1 entries. -/
theorem c9_negative_retention (S c ts : String) (now : Nat) (s : Store)
    (hnd : (s.history.map HFile.name).Nodup)
    (hfresh : ∀ f ∈ s.history, f.name ≠ histName S ts)
    (hmt : (((writeFile s.history (histName S ts) c now).filter
        (fun f => matchesGlob S f.name)).map HFile.mtime).Nodup) :
    ((capture S c ts (-1) now s).history.filter (fun f => matchesGlob S f.name)).length =
      ((writeFile s.history (histName S ts) c now).filter
        (fun f => matchesGlob S f.name)).length - 1 ∧
    (∀ f ∈ (writeFile s.history (histName S ts) c now).filter
        (fun f => matchesGlob S f.name),
      (f ∈ (capture S c ts (-1) now s).history ↔
        ∃ g ∈ (writeFile s.history (histName S ts) c now).filter
          (fun f => matchesGlob S f.name), g.mtime < f.mtime)) ∧
    ¬ ((((capture S c ts (-1) now s).history.filter
        (fun f => matchesGlob S f.name)).length : Int) ≤ -1) := by
  have hwf : writeFile s.history (histName S ts) c now =
      s.history ++ [⟨histName S ts, c, now⟩] := writeFile_of_fresh hfresh c now
  have hnd1 : ((writeFile s.history (histName S ts) c now).map HFile.name).Nodup := by
    rw [hwf, List.map_append]
    rw [List.nodup_append]
    refine ⟨hnd, by simp, ?_⟩
    intro x hx hx2
    rcases List.mem_map.1 hx with ⟨g, hg, rfl⟩
    have : g.name = histName S ts := by simpa using hx2
    exact hfresh g hg this
  have hnewM : (⟨histName S ts, c, now⟩ : HFile) ∈
      (writeFile s.history (histName S ts) c now).filter (fun f => matchesGlob S f.name) := by
    rw [hwf]
    exact List.mem_filter.2 ⟨List.mem_append_right _ (by simp), matchesGlob_histName S ts⟩
  have hMpos : 1 ≤ ((writeFile s.history (histName S ts) c now).filter
      (fun f => matchesGlob S f.name)).length := List.length_pos_of_mem hnewM
  have hsl : (sortDesc ((writeFile s.history (histName S ts) c now).filter
      (fun f => matchesGlob S f.name))).length =
      ((writeFile s.history (histName S ts) c now).filter
        (fun f => matchesGlob S f.name)).length := (sortDesc_perm _).length_eq
  have hlen : ((capture S c ts (-1) now s).history.filter
      (fun f => matchesGlob S f.name)).length =
      ((writeFile s.history (histName S ts) c now).filter
        (fun f => matchesGlob S f.name)).length - 1 := by
    rw [capture_eq]
    rw [cleanup_matched_length hnd1, pySliceFrom_negOne, List.length_drop, hsl]
    omega
  refine ⟨hlen, ?_, by rw [hlen]; omega⟩
  intro f hfM
  have hfh1 : f ∈ writeFile s.history (histName S ts) c now := List.mem_of_mem_filter hfM
  have hMnodup : ((writeFile s.history (histName S ts) c now).filter
      (fun f => matchesGlob S f.name)).Nodup :=
    (List.Nodup.of_map HFile.name hnd1).filter _
  have hfS : f ∈ sortDesc ((writeFile s.history (histName S ts) c now).filter
      (fun g => matchesGlob S g.name)) := (sortDesc_perm _).mem_iff.2 hfM
  have hstrict := sortDesc_sorted_strict hmt
  have hrank := mem_drop_iff_rank _ f hstrict hfS
    ((sortDesc ((writeFile s.history (histName S ts) c now).filter
      (fun g => matchesGlob S g.name))).length - 1)
  have hrankeq : ((sortDesc ((writeFile s.history (histName S ts) c now).filter
      (fun g => matchesGlob S g.name))).filter (fun g => decide (f.mtime < g.mtime))).length =
      (((writeFile s.history (histName S ts) c now).filter
        (fun g => matchesGlob S g.name)).filter (fun g => decide (f.mtime < g.mtime))).length :=
    ((sortDesc_perm _).filter _).length_eq
  have hsplit := List.length_eq_length_filter_add
    (l := (writeFile s.history (histName S ts) c now).filter (fun g => matchesGlob S g.name))
    (fun g => decide (f.mtime < g.mtime))
  have hfnot : f ∈ ((writeFile s.history (histName S ts) c now).filter
      (fun g => matchesGlob S g.name)).filter (fun g => !decide (f.mtime < g.mtime)) :=
    List.mem_filter.2 ⟨hfM, by simp⟩
  rw [capture_eq, mem_cleanup_iff hnd1, and_iff_right hfh1, pySliceFrom_negOne]
  constructor
  · intro hnot
    have hranklt : ¬ ((sortDesc ((writeFile s.history (histName S ts) c now).filter
        (fun g => matchesGlob S g.name))).length - 1 ≤
        (((writeFile s.history (histName S ts) c now).filter
          (fun g => matchesGlob S g.name)).filter
            (fun g => decide (f.mtime < g.mtime))).length) := by
      intro hcon
      rw [← hrankeq] at hcon
      exact hnot (hrank.2 hcon)
    rw [hsl] at hranklt
    have h2 : 2 ≤ (((writeFile s.history (histName S ts) c now).filter
        (fun g => matchesGlob S g.name)).filter (fun g => !decide (f.mtime < g.mtime))).length := by
      omega
    rcases exists_mem_ne (hMnodup.filter _) h2 f with ⟨g, hgmem, hgf⟩
    have hgM : g ∈ (writeFile s.history (histName S ts) c now).filter
        (fun g => matchesGlob S g.name) := List.mem_of_mem_filter hgmem
    have hgle : ¬ (f.mtime < g.mtime) := by
      have := (List.mem_filter.1 hgmem).2
      simpa using this
    have hgne : g.mtime ≠ f.mtime := by
      intro hcon
      exact hgf (List.inj_on_of_nodup_map hmt hgM hfM hcon)
    exact ⟨g, hgM, lt_of_le_of_ne (not_lt.1 hgle) hgne⟩
  · rintro ⟨g, hgM, hglt⟩ hcon
    have hgnot : g ∈ ((writeFile s.history (histName S ts) c now).filter
        (fun g => matchesGlob S g.name)).filter (fun g => !decide (f.mtime < g.mtime)) :=
      List.mem_filter.2 ⟨hgM, by simp [not_lt.2 (le_of_lt hglt)]⟩
    have hgf : g ≠ f := fun hcon2 => absurd (hcon2 ▸ hglt) (lt_irrefl f.mtime)
    have h2 := two_le_length_of_mem_ne hgf hgnot hfnot
    have hge := hrank.1 hcon
    rw [hrankeq, hsl] at hge
    omega

theorem c9_negative_retention_witness :
    ((capture "A" "c" "20240103_000000" (-1) 30
        (⟨[], [⟨"A_20240101_000000.html", "o1", 10⟩,
          ⟨"A_20240102_000000.html", "o2", 20⟩], true, true⟩ : Store)).history.filter
      (fun f => matchesGlob "A" f.name)).length =
      ((writeFile [⟨"A_20240101_000000.html", "o1", 10⟩, ⟨"A_20240102_000000.html", "o2", 20⟩]
          (histName "A" "20240103_000000") "c" 30).filter
        (fun f => matchesGlob "A" f.name)).length - 1 :=
  (c9_negative_retention "A" "c" "20240103_000000" 30
    (⟨[], [⟨"A_20240101_000000.html", "o1", 10⟩,
      ⟨"A_20240102_000000.html", "o2", 20⟩], true, true⟩ : Store)
    (by decide) (by decide) (by decide)).1

/-- One capture step under the C1 invariant: all history files of the
store match the glob, the new timestamped name is fresh, and names are
unique; then the history grows to min (m+1) N, still consists of matching
files with unique names, and every file is either the new entry or an old
one. -/
theorem capture_step_invariant (S c ts : String) (N : Nat) (now : Nat) (s : Store)
    (hmatch : ∀ f ∈ s.history, matchesGlob S f.name = true)
    (hfresh : ∀ f ∈ s.history, f.name ≠ histName S ts)
    (hnd : (s.history.map HFile.name).Nodup) :
    (capture S c ts (N : Int) now s).history.length = min (s.history.length + 1) N ∧
    (∀ f ∈ (capture S c ts (N : Int) now s).history, matchesGlob S f.name = true) ∧
    (∀ f ∈ (capture S c ts (N : Int) now s).history,
      f.name = histName S ts ∨ f ∈ s.history) ∧
    ((capture S c ts (N : Int) now s).history.map HFile.name).Nodup := by
  have hwf : writeFile s.history (histName S ts) c now =
      s.history ++ [⟨histName S ts, c, now⟩] := writeFile_of_fresh hfresh c now
  have hnd1 : ((writeFile s.history (histName S ts) c now).map HFile.name).Nodup := by
    rw [hwf, List.map_append, List.nodup_append]
    refine ⟨hnd, by simp, ?_⟩
    intro x hx hx2
    rcases List.mem_map.1 hx with ⟨g, hg, rfl⟩
    have : g.name = histName S ts := by simpa using hx2
    exact hfresh g hg this
  have hmatch1 : ∀ f ∈ writeFile s.history (histName S ts) c now,
      matchesGlob S f.name = true := by
    intro f hf
    rw [hwf] at hf
    rcases List.mem_append.1 hf with hfs | hfnew
    · exact hmatch f hfs
    · have : f = ⟨histName S ts, c, now⟩ := by simpa using hfnew
      rw [this]
      exact matchesGlob_histName S ts
  have hcap : (capture S c ts (N : Int) now s).history =
      cleanup_history noFail S (writeFile s.history (histName S ts) c now) (N : Int) := by
    rw [capture_eq]
  have hsub : ∀ f ∈ (capture S c ts (N : Int) now s).history,
      f ∈ writeFile s.history (histName S ts) c now := by
    intro f hf
    rw [hcap, mem_cleanup_iff hnd1] at hf
    exact hf.1
  have hm2 : ∀ f ∈ (capture S c ts (N : Int) now s).history,
      matchesGlob S f.name = true := fun f hf => hmatch1 f (hsub f hf)
  refine ⟨?_, hm2, ?_, ?_⟩
  · have hfid : (capture S c ts (N : Int) now s).history.filter
        (fun f => matchesGlob S f.name) = (capture S c ts (N : Int) now s).history :=
      List.filter_eq_self.2 hm2
    have hfid1 : (writeFile s.history (histName S ts) c now).filter
        (fun f => matchesGlob S f.name) = writeFile s.history (histName S ts) c now :=
      List.filter_eq_self.2 hmatch1
    have := cleanup_matched_length (p := S)
      (h := writeFile s.history (histName S ts) c now) (k := (N : Int)) hnd1
    rw [← hcap, hfid, hfid1, pySliceFrom_natCast, List.length_drop] at this
    have hslen : (sortDesc (writeFile s.history (histName S ts) c now)).length =
        (writeFile s.history (histName S ts) c now).length := (sortDesc_perm _).length_eq
    have hwlen : (writeFile s.history (histName S ts) c now).length =
        s.history.length + 1 := by
      rw [hwf]
      simp
    rw [this, hslen, hwlen]
    omega
  · intro f hf
    have := hsub f hf
    rw [hwf] at this
    rcases List.mem_append.1 this with hfs | hfnew
    · exact Or.inr hfs
    · have : f = ⟨histName S ts, c, now⟩ := by simpa using hfnew
      exact Or.inl (by rw [this])
  · rw [hcap, cleanup_history_noFail]
    exact List.Nodup.sublist ((List.filter_sublist _).map HFile.name) hnd1

/-- Iterating captures under the C1 invariant. -/
theorem captureSeq_invariant (S : String) (N : Nat) (caps : List (String × String × Nat)) :
    ∀ s : Store,
    (caps.map (fun q => q.2.1)).Nodup →
    (∀ f ∈ s.history, matchesGlob S f.name = true) →
    (∀ f ∈ s.history, ∀ q ∈ caps, f.name ≠ histName S q.2.1) →
    ((s.history.map HFile.name).Nodup) →
    s.history.length ≤ N →
    (captureSeq S (N : Int) caps s).history.length = min (s.history.length + caps.length) N ∧
    (∀ f ∈ (captureSeq S (N : Int) caps s).history, matchesGlob S f.name = true) := by
  induction caps with
  | nil =>
    intro s _ hmatch _ _ hle
    refine ⟨?_, by simpa [captureSeq] using hmatch⟩
    simp only [captureSeq, List.length_nil]
    omega
  | cons q caps ih =>
    rcases q with ⟨c, ts, now⟩
    intro s hdist hmatch hfresh hnd hle
    have hfresh1 : ∀ f ∈ s.history, f.name ≠ histName S ts :=
      fun f hf => hfresh f hf (c, ts, now) (by simp)
    obtain ⟨hlen, hm2, hsubnames, hnd2⟩ :=
      capture_step_invariant S c ts N now s hmatch hfresh1 hnd
    have hdist2 : (caps.map (fun q => q.2.1)).Nodup := (List.nodup_cons.1 hdist).2
    have hts_not : ts ∉ caps.map (fun q => q.2.1) := (List.nodup_cons.1 hdist).1
    have hfresh2 : ∀ f ∈ (capture S c ts (N : Int) now s).history,
        ∀ q2 ∈ caps, f.name ≠ histName S q2.2.1 := by
      intro f hf q2 hq2 hcon
      rcases hsubnames f hf with hname | hfs
      · have hts : ts = q2.2.1 := histName_inj (hname ▸ hcon)
        exact hts_not (hts ▸ List.mem_map.2 ⟨q2, hq2, rfl⟩)
      · exact hfresh f hfs q2 (by simp [hq2]) hcon
    have hle2 : (capture S c ts (N : Int) now s).history.length ≤ N := by
      rw [hlen]
      omega
    have hrest := ih (capture S c ts (N : Int) now s) hdist2 hm2 hfresh2 hnd2 hle2
    have hstep : captureSeq S (N : Int) ((c, ts, now) :: caps) s =
        captureSeq S (N : Int) caps (capture S c ts (N : Int) now s) := rfl
    rw [hstep]
    refine ⟨?_, hrest.2⟩
    rw [hrest.1, hlen]
    simp only [List.length_cons]
    omega

/-- Claim C1: starting from an empty store, after k captures for subject S
with fixed retention N and pairwise distinct timestamps, the number of
history files for S equals min k N. -/
theorem c1_history_count (S : String) (N : Nat) (caps : List (String × String × Nat))
    (hdist : (caps.map (fun q => q.2.1)).Nodup) :
    ((captureSeq S (N : Int) caps emptyStore).history.filter
      (fun f => matchesGlob S f.name)).length = min caps.length N := by
  obtain ⟨hlen, hall⟩ := captureSeq_invariant S N caps emptyStore hdist
    (by intro f hf; simp [emptyStore] at hf) (by intro f hf; simp [emptyStore] at hf)
    (by simp [emptyStore]) (by simp [emptyStore])
  rw [List.filter_eq_self.2 hall, hlen]
  simp [emptyStore]

theorem c1_history_count_witness :
    ((captureSeq "PageA" ((2 : Nat) : Int)
        [("v1", "20240101_120000", 1), ("v2", "20240101_120005", 2),
          ("v3", "20240101_120010", 3)] emptyStore).history.filter
      (fun f => matchesGlob "PageA" f.name)).length = min 3 2 :=
  c1_history_count "PageA" 2
    [("v1", "20240101_120000", 1), ("v2", "20240101_120005", 2),
      ("v3", "20240101_120010", 3)] (by decide)

/-- A file whose name is not in the deletion list survives the unlink
loop, whatever unlink failures occur. -/
theorem mem_unlinkAll (fails : Step → Bool) (ns : List String) (h : List HFile) (f : HFile)
    (hf : f ∈ h) (hn : ∀ n ∈ ns, f.name ≠ n) : f ∈ unlinkAll fails ns h := by
  induction ns generalizing h with
  | nil => exact hf
  | cons n ns ih =>
    unfold unlinkAll
    split
    · exact hf
    · apply ih
      · exact List.mem_filter.2 ⟨hf, by simp [bne_iff_ne]; exact hn n (by simp)⟩
      · intro n2 hn2
        exact hn n2 (by simp [hn2])

/-- Claim C8, counterexample: with three pre-existing history files whose
mtimes all exceed or undercut the new write's mtime as below, retention 1
puts the new entry in the middle of the deletion list; the unlink of the
oldest file fails after the new entry was already unlinked, so pruning
raises (and is swallowed), the call returns normally, but the new history
entry written earlier in the same call is gone. -/
theorem c8_counterexample :
    save_html_snapshot (fun st => decide (st = Step.unlink "A_20240101_000000.html"))
        "A" "new" "20240105_000000" 1 50
        (⟨[], [⟨"A_20240104_000000.html", "a", 100⟩, ⟨"A_20240103_000000.html", "b", 90⟩,
          ⟨"A_20240101_000000.html", "d", 10⟩], true, true⟩ : Store) =
      Except.ok (⟨[⟨"A.html", "new", 50⟩],
        [⟨"A_20240104_000000.html", "a", 100⟩, ⟨"A_20240101_000000.html", "d", 10⟩],
        true, true⟩ : Store) ∧
    (∀ f ∈ ([⟨"A_20240104_000000.html", "a", 100⟩,
        ⟨"A_20240101_000000.html", "d", 10⟩] : List HFile),
      f.name ≠ histName "A" "20240105_000000") :=
  ⟨rfl, by decide⟩

/-- Claim C8, amended: a failure during the pruning step is caught inside
the cleanup routine, so the call still returns normally and the live
snapshot keeps the new content; the new history entry also remains on
disk provided retention is at least 1 and the new entry is strictly the
most recently modified matching file (pruning may legitimately delete the
new entry before failing when it lies beyond the retention index in
modification-time order, as the counterexample shows). -/
theorem c8_amended_prune_failure (fails : Step → Bool) (S c ts : String) (N : Int) (now : Nat)
    (s : Store)
    (honly : ∀ st, fails st = true → st = Step.listHist ∨ ∃ n, st = Step.unlink n)
    (hN : 1 ≤ N)
    (hfresh : ∀ f ∈ s.history, f.name ≠ histName S ts)
    (hnewest : ∀ f ∈ s.history, matchesGlob S f.name = true → f.mtime < now) :
    ∃ s1, save_html_snapshot fails S c ts N now s = Except.ok s1 ∧
      readLive s1 S = some c ∧ (⟨histName S ts, c, now⟩ : HFile) ∈ s1.history := by
  have hnotfail : ∀ st, (st = Step.mkSnapshotDir ∨ st = Step.getPageSource ∨
      st = Step.writeLive ∨ st = Step.mkHistoryDir ∨ st = Step.writeHist) →
      fails st = false := by
    intro st hst
    rcases Bool.eq_false_or_eq_true (fails st) with hb | hb
    · exfalso
      rcases honly st hb with hcon | ⟨n, hcon⟩ <;>
        (rcases hst with h | h | h | h | h <;> subst h <;> simp at hcon)
    · exact hb
  have hA := hnotfail Step.mkSnapshotDir (Or.inl rfl)
  have hB := hnotfail Step.getPageSource (Or.inr (Or.inl rfl))
  have hC := hnotfail Step.writeLive (Or.inr (Or.inr (Or.inl rfl)))
  have hD := hnotfail Step.mkHistoryDir (Or.inr (Or.inr (Or.inr (Or.inl rfl))))
  have hE := hnotfail Step.writeHist (Or.inr (Or.inr (Or.inr (Or.inr rfl))))
  have hrun : save_html_snapshot fails S c ts N now s = Except.ok
      { s with
        snapshotDirExists := true
        historyDirExists := true
        live := writeFile s.live (liveName S) c now
        history := cleanup_history fails S
          (writeFile s.history (histName S ts) c now) N } := by
    unfold save_html_snapshot
    simp [hA, hB, hC, hD, hE]
  have hwf : writeFile s.history (histName S ts) c now =
      s.history ++ [(⟨histName S ts, c, now⟩ : HFile)] := writeFile_of_fresh hfresh c now
  have hnew_mem : (⟨histName S ts, c, now⟩ : HFile) ∈
      s.history ++ [(⟨histName S ts, c, now⟩ : HFile)] := List.mem_append_right _ (by simp)
  have hnewM : (⟨histName S ts, c, now⟩ : HFile) ∈
      (s.history ++ [(⟨histName S ts, c, now⟩ : HFile)]).filter (fun f => matchesGlob S f.name) :=
    List.mem_filter.2 ⟨hnew_mem, matchesGlob_histName S ts⟩
  have hcount : ((s.history ++ [(⟨histName S ts, c, now⟩ : HFile)]).filter
      (fun f => matchesGlob S f.name)).count (⟨histName S ts, c, now⟩ : HFile) ≤ 1 := by
    have h1 := (List.filter_sublist (p := fun f => matchesGlob S f.name)
      (s.history ++ [(⟨histName S ts, c, now⟩ : HFile)])).count_le (⟨histName S ts, c, now⟩ : HFile)
    have h2 : (s.history ++ [(⟨histName S ts, c, now⟩ : HFile)]).count
        (⟨histName S ts, c, now⟩ : HFile) = 1 := by
      rw [List.count_append]
      have h3 : s.history.count (⟨histName S ts, c, now⟩ : HFile) = 0 := by
        rw [List.count_eq_zero]
        intro hcon
        exact hfresh _ hcon rfl
      rw [h3]
      simp
    omega
  have hnotslice : (⟨histName S ts, c, now⟩ : HFile) ∉
      pySliceFrom N (sortDesc ((s.history ++ [(⟨histName S ts, c, now⟩ : HFile)]).filter
        (fun f => matchesGlob S f.name))) := by
    intro hcon
    have hps : pySliceFrom N (sortDesc ((s.history ++ [(⟨histName S ts, c, now⟩ : HFile)]).filter
        (fun f => matchesGlob S f.name))) =
        (sortDesc ((s.history ++ [(⟨histName S ts, c, now⟩ : HFile)]).filter
          (fun f => matchesGlob S f.name))).drop N.toNat := by
      unfold pySliceFrom
      rw [if_pos (le_trans zero_le_one hN)]
    rw [hps] at hcon
    have hN1 : 1 ≤ N.toNat := by omega
    have hdd : ((sortDesc ((s.history ++ [(⟨histName S ts, c, now⟩ : HFile)]).filter
        (fun f => matchesGlob S f.name))).drop 1).drop (N.toNat - 1) =
        (sortDesc ((s.history ++ [(⟨histName S ts, c, now⟩ : HFile)]).filter
          (fun f => matchesGlob S f.name))).drop N.toNat := by
      rw [List.drop_drop]
      congr 1
      omega
    rw [← hdd] at hcon
    have htail := (List.drop_sublist _ _).subset hcon
    rcases hsq : sortDesc ((s.history ++ [(⟨histName S ts, c, now⟩ : HFile)]).filter
        (fun f => matchesGlob S f.name)) with _ | ⟨hd, tl⟩
    · rw [hsq] at htail
      simp at htail
    · rw [hsq] at htail
      simp only [List.drop_succ_cons, List.drop_zero] at htail
      have hpair := sortDesc_sorted ((s.history ++ [(⟨histName S ts, c, now⟩ : HFile)]).filter
        (fun f => matchesGlob S f.name))
      rw [hsq] at hpair
      have hge : ∀ x ∈ tl, x.mtime ≤ hd.mtime := (List.pairwise_cons.1 hpair).1
      have hd_mem : hd ∈ (s.history ++ [(⟨histName S ts, c, now⟩ : HFile)]).filter
          (fun f => matchesGlob S f.name) := by
        have : hd ∈ sortDesc ((s.history ++ [(⟨histName S ts, c, now⟩ : HFile)]).filter
            (fun f => matchesGlob S f.name)) := by
          rw [hsq]
          simp
        exact (sortDesc_perm _).mem_iff.1 this
      have hdM := List.mem_filter.1 hd_mem
      rcases List.mem_append.1 hdM.1 with hds | hdnew
      · have hlt := hnewest hd hds hdM.2
        have hle := hge _ htail
        simp only [] at hle
        omega
      · have hdnew2 : hd = ⟨histName S ts, c, now⟩ := by simpa using hdnew
        have hcnt2 : 2 ≤ (sortDesc ((s.history ++ [(⟨histName S ts, c, now⟩ : HFile)]).filter
            (fun f => matchesGlob S f.name))).count (⟨histName S ts, c, now⟩ : HFile) := by
          rw [hsq, hdnew2, List.count_cons_self]
          have := List.count_pos_iff.2 htail
          omega
        have hperm_cnt := (sortDesc_perm ((s.history ++ [(⟨histName S ts, c, now⟩ : HFile)]).filter
          (fun f => matchesGlob S f.name))).count_eq (⟨histName S ts, c, now⟩ : HFile)
        omega
  have hmemcleanup : (⟨histName S ts, c, now⟩ : HFile) ∈
      cleanup_history fails S (s.history ++ [(⟨histName S ts, c, now⟩ : HFile)]) N := by
    unfold cleanup_history
    split
    · exact hnew_mem
    · apply mem_unlinkAll
      · exact hnew_mem
      · intro n hn
        rcases List.mem_map.1 hn with ⟨g, hg, rfl⟩
        intro hname
        have hgM : g ∈ (s.history ++ [(⟨histName S ts, c, now⟩ : HFile)]).filter
            (fun f => matchesGlob S f.name) :=
          (sortDesc_perm _).mem_iff.1 ((pySliceFrom_sublist _ _).subset hg)
        have hgh1 : g ∈ s.history ++ [(⟨histName S ts, c, now⟩ : HFile)] := List.mem_of_mem_filter hgM
        rcases List.mem_append.1 hgh1 with hgs | hgnew
        · exact hfresh g hgs hname.symm
        · have hgeq : g = ⟨histName S ts, c, now⟩ := by simpa using hgnew
          exact hnotslice (hgeq ▸ hg)
  refine ⟨_, hrun, ?_, ?_⟩
  · unfold readLive
    exact find?_writeFile_self s.live (liveName S) c now
  · show (⟨histName S ts, c, now⟩ : HFile) ∈
      cleanup_history fails S (writeFile s.history (histName S ts) c now) N
    rw [hwf]
    exact hmemcleanup

theorem c8_amended_prune_failure_witness :
    ∃ s1, save_html_snapshot (fun st => decide (st = Step.listHist))
        "A" "x" "20240102_000000" 1 5
        (⟨[], [⟨"A_20240101_000000.html", "old", 3⟩], true, true⟩ : Store) = Except.ok s1 ∧
      readLive s1 "A" = some "x" ∧
      (⟨histName "A" "20240102_000000", "x", 5⟩ : HFile) ∈ s1.history :=
  c8_amended_prune_failure (fun st => decide (st = Step.listHist)) "A" "x" "20240102_000000"
    1 5 (⟨[], [⟨"A_20240101_000000.html", "old", 3⟩], true, true⟩ : Store)
    (fun st hst => Or.inl (of_decide_eq_true hst)) (by decide) (by decide) (by decide)

/-- Positional arithmetic: adding a block of weight B compares
lexicographically (high block first) when the low parts are below B. -/
theorem base_block_lt {B h1 h2 x1 x2 : Nat} (hx1 : x1 < B) (hx2 : x2 < B) :
    x1 + B * h1 < x2 + B * h2 ↔ (h1 < h2 ∨ (h1 = h2 ∧ x1 < x2)) := by
  constructor
  · intro hsum
    rcases Nat.lt_trichotomy h1 h2 with hlt | heq | hgt
    · exact Or.inl hlt
    · refine Or.inr ⟨heq, ?_⟩
      subst heq
      omega
    · exfalso
      have h3 : B * h2 + B ≤ B * h1 := by
        have hmul := Nat.mul_le_mul_left B hgt
        calc B * h2 + B = B * (h2 + 1) := by ring
          _ ≤ B * h1 := hmul
      omega
  · rintro (hlt | ⟨heq, hxlt⟩)
    · have h3 : B * h1 + B ≤ B * h2 := by
        have hmul := Nat.mul_le_mul_left B hlt
        calc B * h1 + B = B * (h1 + 1) := by ring
          _ ≤ B * h2 := hmul
      omega
    · subst heq
      omega

/-- Positional arithmetic: block decompositions are unique. -/
theorem base_block_eq {B h1 h2 x1 x2 : Nat} (hB : 0 < B) (hx1 : x1 < B) (hx2 : x2 < B) :
    x1 + B * h1 = x2 + B * h2 ↔ (h1 = h2 ∧ x1 = x2) := by
  constructor
  · intro hsum
    have e1 : (x1 + B * h1) % B = x1 := by
      rw [Nat.add_mul_mod_self_left, Nat.mod_eq_of_lt hx1]
    have e2 : (x2 + B * h2) % B = x2 := by
      rw [Nat.add_mul_mod_self_left, Nat.mod_eq_of_lt hx2]
    have hx : x1 = x2 := by rw [← e1, ← e2, hsum]
    have hh : B * h1 = B * h2 := by omega
    exact ⟨Nat.eq_of_mul_eq_mul_left hB hh, hx⟩
  · rintro ⟨rfl, rfl⟩
    rfl

theorem digitChar_mod (x : Nat) : digitChar (x % 10) = digitChar x := by
  unfold digitChar
  rw [Nat.mod_mod_of_dvd x (dvd_refl 10)]

/-- Digit characters compare like the digits they render. -/
theorem digitChar_lt_iff (x y : Nat) : (digitChar x < digitChar y) ↔ x % 10 < y % 10 := by
  have h : ∀ a : Nat, a < 10 → ∀ b : Nat, b < 10 →
      ((digitChar a < digitChar b) ↔ a < b) := by decide
  rw [← digitChar_mod x, ← digitChar_mod y]
  exact h (x % 10) (Nat.mod_lt x (by norm_num)) (y % 10) (Nat.mod_lt y (by norm_num))

/-- Digit characters are equal exactly when the digits are. -/
theorem digitChar_eq_iff (x y : Nat) : (digitChar x = digitChar y) ↔ x % 10 = y % 10 := by
  have h : ∀ a : Nat, a < 10 → ∀ b : Nat, b < 10 →
      ((digitChar a = digitChar b) ↔ a = b) := by decide
  rw [← digitChar_mod x, ← digitChar_mod y]
  exact h (x % 10) (Nat.mod_lt x (by norm_num)) (y % 10) (Nat.mod_lt y (by norm_num))

theorem padDigits_length (w n : Nat) : (padDigits w n).length = w := by
  induction w generalizing n with
  | zero => rfl
  | succ w ih => simp [padDigits, ih]

theorem charList_not_lt_nil : ¬ List.lt ([] : List Char) [] := fun h => nomatch h

/-- Inversion of the core lexicographic order on a cons pair. -/
theorem charList_lt_cons_iff {a b : Char} {as bs : List Char} :
    List.lt (a :: as) (b :: bs) ↔ a < b ∨ (¬ a < b ∧ ¬ b < a ∧ List.lt as bs) := by
  constructor
  · intro h
    match h with
    | .head _ _ hab => exact Or.inl hab
    | .tail hab hba h2 => exact Or.inr ⟨hab, hba, h2⟩
  · rintro (hab | ⟨hab, hba, h2⟩)
    · exact List.lt.head as bs hab
    · exact List.lt.tail hab hba h2

/-- Lexicographic comparison of equal-length prefixes followed by tails. -/
theorem charList_lt_append_iff {l1 l2 t1 t2 : List Char} (h : l1.length = l2.length) :
    List.lt (l1 ++ t1) (l2 ++ t2) ↔ List.lt l1 l2 ∨ (l1 = l2 ∧ List.lt t1 t2) := by
  induction l1 generalizing l2 with
  | nil =>
    cases l2 with
    | nil =>
      constructor
      · intro hlt
        exact Or.inr ⟨rfl, hlt⟩
      · rintro (hlt | ⟨_, hlt⟩)
        · exact absurd hlt charList_not_lt_nil
        · exact hlt
    | cons b bs => simp at h
  | cons a as ih =>
    cases l2 with
    | nil => simp at h
    | cons b bs =>
      have hlen : as.length = bs.length := by simpa using h
      rw [List.cons_append, List.cons_append]
      constructor
      · intro hlt
        rcases charList_lt_cons_iff.1 hlt with hab | ⟨hab, hba, h2⟩
        · exact Or.inl (charList_lt_cons_iff.2 (Or.inl hab))
        · rcases (ih hlen).1 h2 with h3 | ⟨h3, h4⟩
          · exact Or.inl (charList_lt_cons_iff.2 (Or.inr ⟨hab, hba, h3⟩))
          · have heq : a = b := le_antisymm (not_lt.1 hba) (not_lt.1 hab)
            exact Or.inr ⟨by rw [heq, h3], h4⟩
      · rintro (hlt | ⟨heq, hlt⟩)
        · rcases charList_lt_cons_iff.1 hlt with hab | ⟨hab, hba, h3⟩
          · exact charList_lt_cons_iff.2 (Or.inl hab)
          · exact charList_lt_cons_iff.2 (Or.inr ⟨hab, hba, (ih hlen).2 (Or.inl h3)⟩)
        · have hab : a = b ∧ as = bs := by simpa using heq
          rcases hab with ⟨rfl, rfl⟩
          exact charList_lt_cons_iff.2
            (Or.inr ⟨lt_irrefl a, lt_irrefl a, (ih rfl).2 (Or.inr ⟨rfl, hlt⟩)⟩)

/-- Zero-padded renderings compare like the rendered values (mod the
width). -/
theorem padDigits_lt_iff (w : Nat) (a b : Nat) :
    List.lt (padDigits w a) (padDigits w b) ↔ a % 10 ^ w < b % 10 ^ w := by
  induction w generalizing a b with
  | zero =>
    simp only [padDigits, Nat.pow_zero, Nat.mod_one]
    exact ⟨fun h => absurd h charList_not_lt_nil, fun h => absurd h (lt_irrefl 0)⟩
  | succ w ih =>
    have hB : (0:Nat) < 10 ^ w := pow_pos (by norm_num) w
    have hid : ∀ n : Nat, n % 10 ^ (w + 1) = n % 10 ^ w + 10 ^ w * (n / 10 ^ w % 10) := by
      intro n
      rw [pow_succ]
      exact Nat.mod_mul
    have hneg : (¬ digitChar (a / 10 ^ w) < digitChar (b / 10 ^ w) ∧
        ¬ digitChar (b / 10 ^ w) < digitChar (a / 10 ^ w)) ↔
        a / 10 ^ w % 10 = b / 10 ^ w % 10 := by
      constructor
      · rintro ⟨hab, hba⟩
        exact (digitChar_eq_iff _ _).1 (le_antisymm (not_lt.1 hba) (not_lt.1 hab))
      · intro heq
        have hdeq : digitChar (a / 10 ^ w) = digitChar (b / 10 ^ w) :=
          (digitChar_eq_iff _ _).2 heq
        rw [hdeq]
        exact ⟨lt_irrefl _, lt_irrefl _⟩
    simp only [padDigits]
    rw [charList_lt_cons_iff]
    constructor
    · rintro (hlt | ⟨hab, hba, htail⟩)
      · rw [digitChar_lt_iff] at hlt
        rw [hid a, hid b]
        exact (base_block_lt (Nat.mod_lt _ hB) (Nat.mod_lt _ hB)).2 (Or.inl hlt)
      · have heq := hneg.1 ⟨hab, hba⟩
        have htail2 := (ih a b).1 htail
        rw [hid a, hid b]
        exact (base_block_lt (Nat.mod_lt _ hB) (Nat.mod_lt _ hB)).2 (Or.inr ⟨heq, htail2⟩)
    · intro hmod
      rw [hid a, hid b] at hmod
      rcases (base_block_lt (Nat.mod_lt _ hB) (Nat.mod_lt _ hB)).1 hmod with hlt | ⟨heq, hxlt⟩
      · exact Or.inl ((digitChar_lt_iff _ _).2 hlt)
      · have hd := hneg.2 heq
        exact Or.inr ⟨hd.1, hd.2, (ih a b).2 hxlt⟩

/-- Zero-padded renderings are equal exactly when the rendered values are
(mod the width). -/
theorem padDigits_eq_iff (w : Nat) (a b : Nat) :
    padDigits w a = padDigits w b ↔ a % 10 ^ w = b % 10 ^ w := by
  induction w generalizing a b with
  | zero => simp [padDigits, Nat.mod_one]
  | succ w ih =>
    have hB : (0:Nat) < 10 ^ w := pow_pos (by norm_num) w
    have hid : ∀ n : Nat, n % 10 ^ (w + 1) = n % 10 ^ w + 10 ^ w * (n / 10 ^ w % 10) := by
      intro n
      rw [pow_succ]
      exact Nat.mod_mul
    simp only [padDigits, List.cons.injEq]
    rw [digitChar_eq_iff, ih, hid a, hid b,
      base_block_eq hB (Nat.mod_lt _ hB) (Nat.mod_lt _ hB)]

/-- Within the same second, strftime renders equal timestamp strings
(microseconds do not appear in the format). -/
theorem pyStrftime_sameSecond {d1 d2 : PyDateTime} (h : sameSecond d1 d2) :
    pyStrftime d1 = pyStrftime d2 := by
  obtain ⟨h1, h2, h3, h4, h5, h6⟩ := h
  unfold pyStrftime
  rw [h1, h2, h3, h4, h5, h6]

/-- The strftime format is lexicographically sortable: for valid
datetimes, the core lexicographic order on rendered strings agrees with
chronological order at second resolution. -/
theorem pyStrftime_lt_iff (e1 e2 : PyDateTime) (hv1 : e1.Valid) (hv2 : e2.Valid) :
    List.lt (pyStrftime e1).data (pyStrftime e2).data ↔ secKey e1 < secKey e2 := by
  obtain ⟨hy1a, hy1b, hmo1a, hmo1b, hd1a, hd1b, hh1, hmi1, hs1v, _⟩ := hv1
  obtain ⟨hy2a, hy2b, hmo2a, hmo2b, hd2a, hd2b, hh2, hmi2, hs2v, _⟩ := hv2
  have hdata : ∀ e : PyDateTime, (pyStrftime e).data =
      padDigits 4 e.year ++ (padDigits 2 e.month ++ (padDigits 2 e.day ++
        ('_' :: (padDigits 2 e.hour ++ (padDigits 2 e.minute ++ padDigits 2 e.second))))) := by
    intro e
    show (padDigits 4 e.year ++ padDigits 2 e.month ++ padDigits 2 e.day ++
      '_' :: (padDigits 2 e.hour ++ padDigits 2 e.minute ++ padDigits 2 e.second)) = _
    simp [List.append_assoc]
  rw [hdata e1, hdata e2]
  rw [charList_lt_append_iff (by rw [padDigits_length, padDigits_length])]
  rw [charList_lt_append_iff (by rw [padDigits_length, padDigits_length])]
  rw [charList_lt_append_iff (by rw [padDigits_length, padDigits_length])]
  rw [charList_lt_cons_iff]
  rw [charList_lt_append_iff (by rw [padDigits_length, padDigits_length])]
  rw [charList_lt_append_iff (by rw [padDigits_length, padDigits_length])]
  simp only [padDigits_lt_iff, padDigits_eq_iff]
  have hy1 : e1.year % 10 ^ 4 = e1.year := Nat.mod_eq_of_lt (by norm_num; omega)
  have hy2 : e2.year % 10 ^ 4 = e2.year := Nat.mod_eq_of_lt (by norm_num; omega)
  have hmo1 : e1.month % 10 ^ 2 = e1.month := Nat.mod_eq_of_lt (by norm_num; omega)
  have hmo2 : e2.month % 10 ^ 2 = e2.month := Nat.mod_eq_of_lt (by norm_num; omega)
  have hdy1 : e1.day % 10 ^ 2 = e1.day := Nat.mod_eq_of_lt (by norm_num; omega)
  have hdy2 : e2.day % 10 ^ 2 = e2.day := Nat.mod_eq_of_lt (by norm_num; omega)
  have hho1 : e1.hour % 10 ^ 2 = e1.hour := Nat.mod_eq_of_lt (by norm_num; omega)
  have hho2 : e2.hour % 10 ^ 2 = e2.hour := Nat.mod_eq_of_lt (by norm_num; omega)
  have hmin1 : e1.minute % 10 ^ 2 = e1.minute := Nat.mod_eq_of_lt (by norm_num; omega)
  have hmin2 : e2.minute % 10 ^ 2 = e2.minute := Nat.mod_eq_of_lt (by norm_num; omega)
  have hsec1 : e1.second % 10 ^ 2 = e1.second := Nat.mod_eq_of_lt (by norm_num; omega)
  have hsec2 : e2.second % 10 ^ 2 = e2.second := Nat.mod_eq_of_lt (by norm_num; omega)
  rw [hy1, hy2, hmo1, hmo2, hdy1, hdy2, hho1, hho2, hmin1, hmin2, hsec1, hsec2]
  have hund : ¬ ('_' < '_') := lt_irrefl _
  simp only [hund, false_or, not_false_iff, true_and]
  simp only [secKey]
  omega

/-- Overwriting a name that no file of the list carries changes nothing. -/
theorem map_updFile_id {l : List HFile} {n : String} (h : ∀ f ∈ l, f.name ≠ n)
    (c : String) (m : Nat) : l.map (updFile n c m) = l := by
  induction l with
  | nil => rfl
  | cons f fs ih =>
    rw [List.map_cons, updFile_of_beq_false c m (by simpa using h f (by simp)),
      ih (fun g hg => h g (by simp [hg]))]

/-- Cleanup with retention at least 1 keeps a directory whose only
matching file is its final element. -/
theorem cleanup_single_match (S : String) (base : List HFile) (x : HFile) (N : Int)
    (hN : 1 ≤ N)
    (hclean : base.filter (fun f => matchesGlob S f.name) = [])
    (hx : matchesGlob S x.name = true) :
    cleanup_history noFail S (base ++ [x]) N = base ++ [x] := by
  have hM : (base ++ [x]).filter (fun f => matchesGlob S f.name) = [x] := by
    rw [List.filter_append, hclean]
    simp [hx]
  have hslice : pySliceFrom N (sortDesc ((base ++ [x]).filter
      (fun f => matchesGlob S f.name))) = [] := by
    rw [hM]
    have hsd : sortDesc [x] = [x] := rfl
    rw [hsd]
    unfold pySliceFrom
    rw [if_pos (le_trans zero_le_one hN)]
    apply List.drop_eq_nil_of_le
    have : 1 ≤ N.toNat := by omega
    simpa using this
  rw [cleanup_history_noFail, hslice]
  simp

/-- A capture for S on a store with no matching history files appends
exactly one history entry. -/
theorem capture_clean_history (S c ts : String) (N : Int) (now : Nat) (s : Store)
    (hN : 1 ≤ N)
    (hclean : s.history.filter (fun f => matchesGlob S f.name) = []) :
    (capture S c ts N now s).history =
      s.history ++ [(⟨histName S ts, c, now⟩ : HFile)] := by
  have hfresh : ∀ f ∈ s.history, f.name ≠ histName S ts := by
    intro f hf hcon
    have hmem : f ∈ s.history.filter (fun g => matchesGlob S g.name) :=
      List.mem_filter.2 ⟨hf, by rw [hcon]; exact matchesGlob_histName S ts⟩
    rw [hclean] at hmem
    simp at hmem
  have hcap : (capture S c ts N now s).history =
      cleanup_history noFail S (writeFile s.history (histName S ts) c now) N := by
    rw [capture_eq]
  rw [hcap, writeFile_of_fresh hfresh]
  exact cleanup_single_match S s.history ⟨histName S ts, c, now⟩ N hN hclean
    (matchesGlob_histName S ts)

/-- A capture for S whose timestamped name is already the one history
entry silently overwrites that entry in place. -/
theorem capture_clean_overwrite (S c0 c ts : String) (N : Int) (m0 now : Nat)
    (base : List HFile) (s : Store) (hN : 1 ≤ N)
    (hhist : s.history = base ++ [(⟨histName S ts, c0, m0⟩ : HFile)])
    (hclean : base.filter (fun f => matchesGlob S f.name) = []) :
    (capture S c ts N now s).history = base ++ [(⟨histName S ts, c, now⟩ : HFile)] := by
  have hfresh : ∀ f ∈ base, f.name ≠ histName S ts := by
    intro f hf hcon
    have hmem : f ∈ base.filter (fun g => matchesGlob S g.name) :=
      List.mem_filter.2 ⟨hf, by rw [hcon]; exact matchesGlob_histName S ts⟩
    rw [hclean] at hmem
    simp at hmem
  have hany : (base ++ [(⟨histName S ts, c0, m0⟩ : HFile)]).any
      (fun f => f.name == histName S ts) = true := by
    rw [List.any_append]
    simp
  have hwf2 : writeFile (base ++ [(⟨histName S ts, c0, m0⟩ : HFile)]) (histName S ts) c now =
      base ++ [(⟨histName S ts, c, now⟩ : HFile)] := by
    unfold writeFile
    rw [if_pos hany, List.map_append, map_updFile_id hfresh c now]
    congr 1
    simp [updFile]
  have hcap : (capture S c ts N now s).history =
      cleanup_history noFail S (writeFile s.history (histName S ts) c now) N := by
    rw [capture_eq]
  rw [hcap, hhist, hwf2]
  exact cleanup_single_match S base ⟨histName S ts, c, now⟩ N hN hclean
    (matchesGlob_histName S ts)

/-- Claim C7: each capture writes its history entry under the name
{subject}_{timestamp}.html where the timestamp is the strftime rendering
%Y%m%d_%H%M%S, which has second resolution (two datetimes in the same
second render identically, whatever their microseconds) and is
lexicographically sortable (for valid datetimes, lexicographic order of
rendered strings is chronological order at second resolution); two
captures for the same subject within the same second target the same
filename, and the second call returns normally, silently overwriting the
first's history entry, which afterwards holds the second content. -/
theorem c7_second_resolution_overwrite (S c1 c2 : String) (N : Int) (d1 d2 : PyDateTime)
    (now1 now2 : Nat) (s : Store)
    (_hv1 : d1.Valid) (_hv2 : d2.Valid) (hsame : sameSecond d1 d2) (hN : 1 ≤ N)
    (hclean : s.history.filter (fun f => matchesGlob S f.name) = []) :
    pyStrftime d1 = pyStrftime d2 ∧
    (∀ e1 e2 : PyDateTime, e1.Valid → e2.Valid →
      (List.lt (pyStrftime e1).data (pyStrftime e2).data ↔ secKey e1 < secKey e2)) ∧
    (capture S c2 (pyStrftime d2) N now2
        (capture S c1 (pyStrftime d1) N now1 s)).history.filter
      (fun f => matchesGlob S f.name) =
      [(⟨histName S (pyStrftime d2), c2, now2⟩ : HFile)] ∧
    save_html_snapshot noFail S c2 (pyStrftime d2) N now2
        (capture S c1 (pyStrftime d1) N now1 s) =
      Except.ok (capture S c2 (pyStrftime d2) N now2
        (capture S c1 (pyStrftime d1) N now1 s)) := by
  have hts : pyStrftime d1 = pyStrftime d2 := pyStrftime_sameSecond hsame
  refine ⟨hts, fun e1 e2 he1 he2 => pyStrftime_lt_iff e1 e2 he1 he2, ?_, rfl⟩
  have h1 := capture_clean_history S c1 (pyStrftime d1) N now1 s hN hclean
  have h2 := capture_clean_overwrite S c1 c2 (pyStrftime d2) N now1 now2 s.history
    (capture S c1 (pyStrftime d1) N now1 s) hN (by rw [h1, hts]) hclean
  rw [h2, List.filter_append, hclean]
  simp [matchesGlob_histName]

theorem c7_second_resolution_overwrite_witness :
    (capture "PageA" "v2" (pyStrftime ⟨2024, 1, 2, 3, 4, 5, 999⟩) 2 2
        (capture "PageA" "v1" (pyStrftime ⟨2024, 1, 2, 3, 4, 5, 111⟩) 2 1
          emptyStore)).history.filter
      (fun f => matchesGlob "PageA" f.name) =
      [(⟨histName "PageA" (pyStrftime ⟨2024, 1, 2, 3, 4, 5, 999⟩), "v2", 2⟩ : HFile)] :=
  (c7_second_resolution_overwrite "PageA" "v1" "v2" 2 ⟨2024, 1, 2, 3, 4, 5, 111⟩
    ⟨2024, 1, 2, 3, 4, 5, 999⟩ 1 2 emptyStore (by decide) (by decide) (by decide)
    (by decide) rfl).2.2.1
